import Mathlib

/-!
Verification of the Secure Collatz Cipher core (`collatz_crypto.py`).

The cipher's arbitrary-precision integers are modelled as `ℕ` (all values
in the source are non-negative); byte strings are `List ℕ` (each entry a
byte value).  External library calls are modelled as parameters:

* `H : List ℕ → List ℕ` stands for `hmac.new(master_key, ·, sha256).digest()`
  with the master key fixed — an arbitrary function from messages to digests;
* the secure-random reseed value drawn in `step`'s anti-collapse branch is an
  explicit argument `reseed : ℕ`;
* `math.sqrt` in `runs_test` is an explicit argument `msqrt : ℚ → ℚ`.

The rejection-sampling loop of `generate_balanced_bitstring` has no
termination guarantee in the source, so it is modelled with explicit fuel;
`none` means the loop has not finished within the given fuel.
-/

/-- Big-endian interpretation of a byte list, `int.from_bytes(bs, 'big')`. -/
def fromBytesBE (bs : List ℕ) : ℕ :=
  bs.foldl (fun acc b => acc * 256 + b) 0

/-- Fixed-width big-endian serialization, `n.to_bytes(k, 'big')`:
`k` bytes, most significant first. -/
def natToBytesBE : ℕ → ℕ → List ℕ
  | 0, _ => []
  | k + 1, n => natToBytesBE k (n / 256) ++ [n % 256]

/-- Python's `n.bit_length()`: the number of binary digits of `n`,
with `bitLength 0 = 0`. -/
def bitLength (n : ℕ) : ℕ :=
  if h : n = 0 then 0 else bitLength (n / 2) + 1
decreasing_by exact Nat.div_lt_self (Nat.pos_of_ne_zero h) (by omega)

/-- The minimal big-endian byte serialization of a natural number:
no leading zero byte, `0` serializes to the empty byte string.
(Stated from the spec's words for comparison with the source's
`n.to_bytes((n.bit_length() + 7) // 8, 'big')`.) -/
def minBytesBE (n : ℕ) : List ℕ :=
  if h : n = 0 then [] else minBytesBE (n / 256) ++ [n % 256]
decreasing_by exact Nat.div_lt_self (Nat.pos_of_ne_zero h) (by omega)

/-- `SecureCollatzCipher._derive_dynamic_k` (collatz_crypto.py lines 33-40):
serialize the state with `to_bytes((bit_length+7)//8, 'big')`, apply the keyed
digest `H`, keep the first 16 bytes, read back big-endian. -/
def derive_dynamic_k (H : List ℕ → List ℕ) (n : ℕ) : ℕ :=
  fromBytesBE ((H (natToBytesBE ((bitLength n + 7) / 8) n)).take 16)

/-- The state update of `SecureCollatzCipher.step` (lines 48-55) before the
anti-collapse guard: halve an even state, otherwise apply the keyed affine
map, XOR with the dynamic key, and mask to 512 bits. -/
def stepTransform (A B : ℕ) (H : List ℕ → List ℕ) (s : ℕ) : ℕ :=
  if s % 2 = 0 then s / 2
  else ((A * s + B) ^^^ derive_dynamic_k H s) % 2 ^ 512

/-- `SecureCollatzCipher.step` (lines 42-61): the transform followed by the
anti-collapse guard, which replaces a result `≤ 1` by the fresh
secure-random value `reseed`. -/
def step (A B : ℕ) (H : List ℕ → List ℕ) (reseed : ℕ) (s : ℕ) : ℕ :=
  let s1 := stepTransform A B H s
  if s1 ≤ 1 then reseed else s1

/-- `SecureCollatzCipher._derive_large_odd` (lines 21-31): digest of the salt
under the master key read as a big-endian integer, then made odd (add 1 if
even) and forced above 1 (replace by 3 if still `≤ 1`). -/
def derive_large_odd (H : List ℕ → List ℕ) (salt : List ℕ) : ℕ :=
  let val := fromBytesBE (H salt)
  let val2 := if val % 2 = 0 then val + 1 else val
  if val2 ≤ 1 then 3 else val2

/-- The bit a state contributes in `generate_balanced_bitstring` (lines 78-84):
the character '1' for an odd state, '0' for an even state. -/
def parityChar (s : ℕ) : Char :=
  if s % 2 = 0 then '0' else '1'

/-- The parity characters of the first `n` states visited when repeatedly
stepping with `f` from state `s` — the "underlying stream" of the generator. -/
def parityTrace (f : ℕ → ℕ) : ℕ → ℕ → List Char
  | _, 0 => []
  | s, n + 1 => parityChar s :: parityTrace f (f s) n

/-- The rejection-sampling loop of `generate_balanced_bitstring`
(lines 76-104), with explicit fuel.  `f` is the state update performed by
`step()`, `len` the requested length, `target` the cap `length // 2` for each
bit value, `zeros`/`ones` the running counts and `bits` the accumulator.
Returns `none` when the fuel runs out before the loop exits. -/
def genLoop (f : ℕ → ℕ) (len target : ℤ) : ℕ → ℕ → ℕ → ℕ → List Char → Option (List Char)
  | 0, _, _, _, bits => if (bits.length : ℤ) < len then none else some bits
  | fuel + 1, s, zeros, ones, bits =>
    if (bits.length : ℤ) < len then
      if s % 2 = 0 then
        if (zeros : ℤ) < target then
          genLoop f len target fuel (f s) (zeros + 1) ones (bits ++ ['0'])
        else
          genLoop f len target fuel (f s) zeros ones bits
      else
        if (ones : ℤ) < target then
          genLoop f len target fuel (f s) zeros (ones + 1) (bits ++ ['1'])
        else
          genLoop f len target fuel (f s) zeros ones bits
    else some bits

/-- `SecureCollatzCipher.generate_balanced_bitstring` (lines 63-106).
The length argument is an integer, as in the source, so that odd, zero and
negative requests are all representable.  `Except.error` models the raised
`ValueError`; the outer `none` means the loop did not finish within `fuel`. -/
def generate_balanced_bitstring (f : ℕ → ℕ) (fuel s : ℕ) (len : ℤ) :
    Option (Except String (List Char)) :=
  if len % 2 ≠ 0 then some (Except.error "Length must be even.")
  else (genLoop f len (len / 2) fuel s 0 0 []).map Except.ok

/-- The loop body of `generate_quantization_table` (lines 117-124): `n` slots,
each produced by one `step()` (modelled by `f`) followed by `% 254 + 1`. -/
def quantLoop (f : ℕ → ℕ) : ℕ → ℕ → List ℕ
  | 0, _ => []
  | n + 1, s => (f s % 254 + 1) :: quantLoop f n (f s)

/-- `SecureCollatzCipher.generate_quantization_table` (lines 108-124). -/
def generate_quantization_table (f : ℕ → ℕ) (s : ℕ) : List ℕ :=
  quantLoop f 64 s

/-- The non-overlapping two-character blocks `bitstring[i:i+2]` of
`chi_square_test` (line 140); an odd-length string ends in a one-character
block, exactly as the Python slice does. -/
def chunk2 : List Char → List (List Char)
  | [] => []
  | [c] => [[c]]
  | a :: b :: rest => [a, b] :: chunk2 rest

/-- Whether a complete block is one of the four dictionary keys
"00", "01", "10", "11" of `block_counts` (line 141); any other complete
block raises a `KeyError` in the source. -/
def validBlock (b : List Char) : Bool :=
  b = ['0', '0'] || b = ['0', '1'] || b = ['1', '0'] || b = ['1', '1']

/-- The count of one block key, `block_counts[key]` after the loop of
lines 142-144 (only complete blocks are counted, and a length-2 key never
equals the trailing singleton block). -/
def blockCount (s : List Char) (key : List Char) : ℕ :=
  (chunk2 s).count key

/-- `expected_block = len(blocks) / 4` (line 146): the per-category expected
count used in the block statistic.  Note `len(blocks)` counts the trailing
singleton block of an odd-length string. -/
def expectedBlock (s : List Char) : ℚ :=
  ((chunk2 s).length : ℚ) / 4

/-- The single-bit frequency statistic of lines 133-136:
`expected = n / 2` and the chi-square over the counts of '0' and '1'. -/
def freqChisq (s : List Char) : ℚ :=
  ((s.count '0' : ℚ) - (s.length : ℚ) / 2) ^ 2 / ((s.length : ℚ) / 2) +
    ((s.count '1' : ℚ) - (s.length : ℚ) / 2) ^ 2 / ((s.length : ℚ) / 2)

/-- The 2-bit block statistic of line 147. -/
def blockChisq (s : List Char) : ℚ :=
  ((blockCount s ['0', '0'] : ℚ) - expectedBlock s) ^ 2 / expectedBlock s +
    ((blockCount s ['0', '1'] : ℚ) - expectedBlock s) ^ 2 / expectedBlock s +
    ((blockCount s ['1', '0'] : ℚ) - expectedBlock s) ^ 2 / expectedBlock s +
    ((blockCount s ['1', '1'] : ℚ) - expectedBlock s) ^ 2 / expectedBlock s

/-- The dictionary returned by `chi_square_test` (lines 149-154). -/
structure ChiSquareResult where
  frequency_chisq : ℚ
  block_chisq : ℚ
  count0 : ℕ
  count1 : ℕ
  bc00 : ℕ
  bc01 : ℕ
  bc10 : ℕ
  bc11 : ℕ
  deriving Repr, DecidableEq

/-- `SecureCollatzCipher.chi_square_test` (lines 126-154).  `none` models the
two exceptions the source can raise: the `ZeroDivisionError` of line 136 when
the string is empty (`expected = 0`), and the `KeyError` of line 144 when a
complete block is not a key of `block_counts`. -/
def chi_square_test (s : List Char) : Option ChiSquareResult :=
  if s.length = 0 then none
  else if (chunk2 s).any (fun b => b.length = 2 && !validBlock b) then none
  else some
    { frequency_chisq := freqChisq s
      block_chisq := blockChisq s
      count0 := s.count '0'
      count1 := s.count '1'
      bc00 := blockCount s ['0', '0']
      bc01 := blockCount s ['0', '1']
      bc10 := blockCount s ['1', '0']
      bc11 := blockCount s ['1', '1'] }

/-- The 2-bit block statistic as the claim states it: expected count
`floor(n/2) / 4`, i.e. the number of complete pairs divided by four.
(Stated from the claim's words for comparison with `blockChisq`.) -/
def blockChisqClaimed (s : List Char) : ℚ :=
  ((blockCount s ['0', '0'] : ℚ) - ((s.length / 2 : ℕ) : ℚ) / 4) ^ 2 / (((s.length / 2 : ℕ) : ℚ) / 4) +
    ((blockCount s ['0', '1'] : ℚ) - ((s.length / 2 : ℕ) : ℚ) / 4) ^ 2 / (((s.length / 2 : ℕ) : ℚ) / 4) +
    ((blockCount s ['1', '0'] : ℚ) - ((s.length / 2 : ℕ) : ℚ) / 4) ^ 2 / (((s.length / 2 : ℕ) : ℚ) / 4) +
    ((blockCount s ['1', '1'] : ℚ) - ((s.length / 2 : ℕ) : ℚ) / 4) ^ 2 / (((s.length / 2 : ℕ) : ℚ) / 4)

/-- The run counter of `runs_test` (lines 161-164): starts at 1 (also for the
empty string) and adds 1 at every index whose character differs from its
predecessor. -/
def runsCount : List Char → ℕ
  | [] => 1
  | [_] => 1
  | a :: b :: rest => (if a ≠ b then 1 else 0) + runsCount (b :: rest)

/-- `mean_runs = 2*n0*n1/(n0+n1) + 1` (line 173). -/
def wwMean (n0 n1 : ℕ) : ℚ :=
  (2 * n0 * n1 : ℚ) / ((n0 : ℚ) + n1) + 1

/-- `variance = (2*n0*n1*(2*n0*n1 - n0 - n1)) / ((n0+n1)^2 * (n0+n1-1))`
(line 176). -/
def wwVariance (n0 n1 : ℕ) : ℚ :=
  ((2 * n0 * n1 : ℚ) * (2 * (n0 : ℚ) * n1 - n0 - n1)) /
    (((n0 : ℚ) + n1) ^ 2 * ((n0 : ℚ) + n1 - 1))

/-- The dictionary returned by `runs_test`: the monotone branch (line 170)
returns `z_score = 0` with the status flag and no expected-runs entry; the
normal branch (lines 182-186) returns the expected runs and the z-score. -/
structure RunsResult where
  runs : ℕ
  z_score : ℚ
  monotone : Bool
  expected_runs : Option ℚ
  deriving Repr, DecidableEq

/-- `SecureCollatzCipher.runs_test` (lines 156-186).  `msqrt` models the
floating-point `math.sqrt`; it is applied only when `variance > 0`
(the guard of line 180), otherwise the z-score is 0. -/
def runs_test (msqrt : ℚ → ℚ) (s : List Char) : RunsResult :=
  let runs := runsCount s
  let n0 := s.count '0'
  let n1 := s.count '1'
  if n0 = 0 ∨ n1 = 0 then
    { runs := runs, z_score := 0, monotone := true, expected_runs := none }
  else
    let mean := wwMean n0 n1
    let variance := wwVariance n0 n1
    let z := if variance > 0 then ((runs : ℚ) - mean) / msqrt variance else 0
    { runs := runs, z_score := z, monotone := false, expected_runs := some mean }

theorem bitLength_zero : bitLength 0 = 0 := by
  rw [bitLength]
  simp

theorem bitLength_succ (n : ℕ) (h : n ≠ 0) : bitLength n = bitLength (n / 2) + 1 := by
  rw [bitLength]
  simp [h]

theorem bitLength_le (k : ℕ) : ∀ n : ℕ, n < 2 ^ k → bitLength n ≤ k := by
  induction k with
  | zero =>
    intro n hn
    interval_cases n
    simp [bitLength_zero]
  | succ k ih =>
    intro n hn
    by_cases h : n = 0
    · simp [h, bitLength_zero]
    · rw [bitLength_succ n h]
      have : n / 2 < 2 ^ k := by
        have := Nat.pow_succ 2 k
        omega
      exact Nat.succ_le_succ (ih _ this)

theorem bitLength_div256 (n : ℕ) (h : 256 ≤ n) :
    bitLength n = bitLength (n / 256) + 8 := by
  rw [bitLength_succ n (by omega)]
  rw [bitLength_succ (n / 2) (by omega)]
  rw [bitLength_succ (n / 2 / 2) (by omega)]
  rw [bitLength_succ (n / 2 / 2 / 2) (by omega)]
  rw [bitLength_succ (n / 2 / 2 / 2 / 2) (by omega)]
  rw [bitLength_succ (n / 2 / 2 / 2 / 2 / 2) (by omega)]
  rw [bitLength_succ (n / 2 / 2 / 2 / 2 / 2 / 2) (by omega)]
  rw [bitLength_succ (n / 2 / 2 / 2 / 2 / 2 / 2 / 2) (by omega)]
  have h8 : n / 2 / 2 / 2 / 2 / 2 / 2 / 2 / 2 = n / 256 := by omega
  rw [h8]

theorem minBytesBE_zero : minBytesBE 0 = [] := by
  rw [minBytesBE]
  simp

theorem minBytesBE_pos (n : ℕ) (h : n ≠ 0) :
    minBytesBE n = minBytesBE (n / 256) ++ [n % 256] := by
  rw [minBytesBE]
  simp [h]

/-- The source's serialization `n.to_bytes((n.bit_length() + 7) // 8, 'big')`
is exactly the minimal big-endian byte serialization. -/
theorem natToBytesBE_bitLength_eq_minBytesBE (n : ℕ) :
    natToBytesBE ((bitLength n + 7) / 8) n = minBytesBE n := by
  induction n using Nat.strong_induction_on with
  | _ n ih =>
    by_cases h0 : n = 0
    · subst h0
      simp [bitLength_zero, natToBytesBE, minBytesBE_zero]
    · by_cases h256 : n < 256
      · have hle : bitLength n ≤ 8 := bitLength_le 8 n (by omega)
        have hpos : bitLength n ≠ 0 := by
          rw [bitLength_succ n h0]
          omega
        have hbyte : (bitLength n + 7) / 8 = 1 := by omega
        rw [hbyte]
        have hdiv : n / 256 = 0 := by omega
        have hmod : n % 256 = n := by omega
        rw [minBytesBE_pos n h0, hdiv, minBytesBE_zero]
        simp [natToBytesBE, hmod]
      · have hrec := bitLength_div256 n (by omega)
        have hbyte : (bitLength n + 7) / 8 = (bitLength (n / 256) + 7) / 8 + 1 := by
          omega
        rw [hbyte]
        show natToBytesBE ((bitLength (n / 256) + 7) / 8) (n / 256) ++ [n % 256] = _
        rw [ih (n / 256) (Nat.div_lt_self (by omega) (by omega))]
        rw [minBytesBE_pos n h0]

theorem fromBytesBE_normalize_odd_gt_one (v : ℕ) :
    Odd (if (if v % 2 = 0 then v + 1 else v) ≤ 1 then 3 else if v % 2 = 0 then v + 1 else v) ∧
    1 < (if (if v % 2 = 0 then v + 1 else v) ≤ 1 then 3 else if v % 2 = 0 then v + 1 else v) := by
  by_cases hv : v % 2 = 0
  · simp only [if_pos hv]
    by_cases h1 : v + 1 ≤ 1
    · simp only [if_pos h1]
      exact ⟨⟨1, by ring⟩, by omega⟩
    · simp only [if_neg h1]
      exact ⟨Nat.odd_iff.mpr (by omega), by omega⟩
  · simp only [if_neg hv]
    by_cases h1 : v ≤ 1
    · simp only [if_pos h1]
      exact ⟨⟨1, by ring⟩, by omega⟩
    · simp only [if_neg h1]
      exact ⟨Nat.odd_iff.mpr (by omega), by omega⟩

/-- Claim C9: for every master key (any digest function `H`, so in particular
the HMAC of any master key, including the all-zero key) and either
domain-separation label, `derive_large_odd` returns an odd integer strictly
greater than 1, obtained from the digest value by adding 1 if it is even and
replacing it by 3 if the result is still at most 1. -/
theorem derive_large_odd_odd_gt_one (H : List ℕ → List ℕ) (salt : List ℕ) :
    Odd (derive_large_odd H salt) ∧ 1 < derive_large_odd H salt := by
  have h := fromBytesBE_normalize_odd_gt_one (fromBytesBE (H salt))
  simpa [derive_large_odd] using h

/-- Claim C2: a single `step()` maps an even state `s` to exactly `s / 2`, and
an odd state `s` to `((A*s + B) XOR k) mod 2^512` before anti-collapse, where
`k` is the big-endian integer of the first 16 bytes of the keyed digest of the
minimal big-endian serialization of `s` (the digest under the master key being
modelled by `H`). -/
theorem stepTransform_spec (A B : ℕ) (H : List ℕ → List ℕ) (s : ℕ) :
    (s % 2 = 0 → stepTransform A B H s = s / 2) ∧
    (s % 2 = 1 → stepTransform A B H s =
      ((A * s + B) ^^^ fromBytesBE ((H (minBytesBE s)).take 16)) % 2 ^ 512) := by
  constructor
  · intro h
    simp [stepTransform, h]
  · intro h
    have h0 : ¬ s % 2 = 0 := by omega
    simp only [stepTransform, if_neg h0, derive_dynamic_k,
      natToBytesBE_bitLength_eq_minBytesBE]

theorem stepTransform_spec_witness :
    stepTransform 3 5 (fun _ => [7]) 4 = 4 / 2 ∧
    stepTransform 3 5 (fun _ => [7]) 5 =
      ((3 * 5 + 5) ^^^ fromBytesBE (([7] : List ℕ).take 16)) % 2 ^ 512 :=
  ⟨(stepTransform_spec 3 5 (fun _ => [7]) 4).1 rfl,
   (stepTransform_spec 3 5 (fun _ => [7]) 5).2 rfl⟩

/-- Claim C3 counterexample: the anti-collapse reseed is a single draw with no
retry, so when the secure-random source delivers the 32-byte value 0 the state
after `step()` is 0, not greater than 1 (prior state 2, even branch gives 1,
the guard fires and installs the reseed value unchecked). -/
theorem step_state_gt_one_fails :
    step 3 5 (fun _ => []) 0 2 = 0 ∧ ¬ 1 < step 3 5 (fun _ => []) 0 2 := by
  constructor <;> decide

/-- Claim C3 (amended): after `step()` from any prior state below `2^512`, the
state is below `2^512`; it is moreover greater than 1 provided the reseed
value that the secure-random source would deliver is itself greater than 1
(the source draws 32 bytes, hence a value below `2^256`, but nothing prevents
it from being 0 or 1). -/
theorem step_bounds (A B : ℕ) (H : List ℕ → List ℕ) (r s : ℕ)
    (hs : s < 2 ^ 512) (hr1 : 1 < r) (hr2 : r < 2 ^ 256) :
    1 < step A B H r s ∧ step A B H r s < 2 ^ 512 := by
  have htrans : stepTransform A B H s < 2 ^ 512 := by
    rw [stepTransform]
    split
    · have : s / 2 ≤ s := Nat.div_le_self s 2
      omega
    · exact Nat.mod_lt _ (by positivity)
  have h2 : (2 : ℕ) ^ 256 < 2 ^ 512 := Nat.pow_lt_pow_right (by omega) (by omega)
  rw [step]
  by_cases hle : stepTransform A B H s ≤ 1
  · simp only [if_pos hle]
    omega
  · simp only [if_neg hle]
    omega

theorem step_bounds_witness :
    1 < step 3 5 (fun _ => []) 2 4 ∧ step 3 5 (fun _ => []) 2 4 < 2 ^ 512 :=
  step_bounds 3 5 (fun _ => []) 2 4 (by norm_num) (by norm_num) (by norm_num)

theorem quantLoop_eq_map (f : ℕ → ℕ) :
    ∀ n s, quantLoop f n s = (List.range n).map (fun i => f^[i + 1] s % 254 + 1) := by
  intro n
  induction n with
  | zero => intro s; simp [quantLoop]
  | succ n ih =>
    intro s
    rw [quantLoop, ih (f s), List.range_succ_eq_map, List.map_cons, List.map_map]
    refine congrArg₂ _ (by simp) ?_
    refine List.map_congr_left fun i _ => ?_
    simp [Function.comp, Function.iterate_succ_apply]

/-- Claim C5: `generate_quantization_table()` returns exactly 64 integers,
each between 1 and 255, and the i-th entry is obtained by advancing the
stream one `step()` (state update `f`) and mapping the new state through
`(state mod 254) + 1`. -/
theorem generate_quantization_table_spec (f : ℕ → ℕ) (s : ℕ) :
    (generate_quantization_table f s).length = 64 ∧
    (∀ v ∈ generate_quantization_table f s, 1 ≤ v ∧ v ≤ 255) ∧
    generate_quantization_table f s =
      (List.range 64).map (fun i => f^[i + 1] s % 254 + 1) := by
  have h := quantLoop_eq_map f 64 s
  rw [generate_quantization_table]
  refine ⟨by rw [h]; simp, ?_, h⟩
  intro v hv
  rw [h] at hv
  simp only [List.mem_map] at hv
  obtain ⟨i, _, rfl⟩ := hv
  have := Nat.mod_lt (f^[i + 1] s) (show 0 < 254 by omega)
  omega

theorem generate_quantization_table_spec_witness :
    (generate_quantization_table (step 3 5 (fun _ => []) 7) 0).length = 64 ∧
      (∀ v ∈ generate_quantization_table (step 3 5 (fun _ => []) 7) 0, 1 ≤ v ∧ v ≤ 255) ∧
      generate_quantization_table (step 3 5 (fun _ => []) 7) 0 =
        (List.range 64).map (fun i => (step 3 5 (fun _ => []) 7)^[i + 1] 0 % 254 + 1) :=
  generate_quantization_table_spec (step 3 5 (fun _ => []) 7) 0

theorem count_zero_add_count_one (s : List Char) (hb : ∀ c ∈ s, c = '0' ∨ c = '1') :
    s.count '0' + s.count '1' = s.length := by
  induction s with
  | nil => simp
  | cons a t ih =>
    have ht : ∀ c ∈ t, c = '0' ∨ c = '1' := fun c hc => hb c (by simp [hc])
    have := ih ht
    rcases hb a (by simp) with rfl | rfl <;> simp [List.count_cons] <;> omega

theorem chunk2_mem : ∀ s : List Char, ∀ b ∈ chunk2 s, ∀ c ∈ b, c ∈ s
  | [] => by simp [chunk2]
  | [a] => by
    simp only [chunk2, List.mem_singleton]
    rintro b rfl c hc
    simpa using hc
  | a :: b :: rest => by
    have ih := chunk2_mem rest
    simp only [chunk2, List.mem_cons]
    rintro blk (rfl | hblk) c hc
    · simp only [List.mem_cons, List.not_mem_nil, or_false] at hc
      rcases hc with rfl | rfl <;> simp
    · have := ih blk hblk c hc
      simp [this]

theorem chunk2_length : ∀ s : List Char, (chunk2 s).length = (s.length + 1) / 2
  | [] => by simp [chunk2]
  | [a] => by simp [chunk2]
  | a :: b :: rest => by
    have ih := chunk2_length rest
    simp only [chunk2, List.length_cons]
    omega

theorem chunk2_no_invalid (s : List Char) (hb : ∀ c ∈ s, c = '0' ∨ c = '1') :
    ((chunk2 s).any fun b => b.length = 2 && !validBlock b) = false := by
  rw [List.any_eq_false]
  intro b hbmem
  by_cases hlen : b.length = 2
  · obtain ⟨x, y, rfl⟩ := List.length_eq_two.mp hlen
    have hx := hb x (chunk2_mem s _ hbmem x (by simp))
    have hy := hb y (chunk2_mem s _ hbmem y (by simp))
    rcases hx with rfl | rfl <;> rcases hy with rfl | rfl <;> decide
  · simp [hlen]

/-- Claim C6 counterexample: on the empty string (which trivially has equal
'0'/'1' counts) `chi_square_test` fails — `expected = 0/2` makes line 136 a
division by zero, modelled by the `none` result — so the path is not
failure-free. -/
theorem chi_square_test_empty_fails :
    chi_square_test [] = none ∧
      List.count '0' ([] : List Char) = List.count '1' ([] : List Char) := by
  refine ⟨by decide, by decide⟩

/-- Claim C6 (amended): for every non-empty bitstring with equally many '0'
and '1' characters, `chi_square_test` succeeds and returns
`frequency_chisq = 0`; the empty string instead raises a division-by-zero
error. -/
theorem chi_square_test_balanced (s : List Char) (hne : s ≠ [])
    (hb : ∀ c ∈ s, c = '0' ∨ c = '1') (heq : s.count '0' = s.count '1') :
    (chi_square_test s).map ChiSquareResult.frequency_chisq = some 0 := by
  have hn : ¬ s.length = 0 := by simp [hne]
  rw [chi_square_test, if_neg hn, if_neg (by simp [chunk2_no_invalid s hb])]
  have hsum := count_zero_add_count_one s hb
  have hlen : (s.length : ℚ) = 2 * (s.count '0' : ℚ) := by
    have : s.length = 2 * s.count '0' := by omega
    exact_mod_cast this
  have hfc : freqChisq s = 0 := by
    rw [freqChisq, ← heq, hlen]
    ring_nf
  simp [hfc]

theorem chi_square_test_balanced_witness :
    (chi_square_test ['0', '1']).map ChiSquareResult.frequency_chisq = some 0 :=
  chi_square_test_balanced ['0', '1'] (by decide) (by decide) (by decide)

theorem blockCount_sum : ∀ s : List Char, (∀ c ∈ s, c = '0' ∨ c = '1') →
    blockCount s ['0', '0'] + blockCount s ['0', '1'] +
      blockCount s ['1', '0'] + blockCount s ['1', '1'] = s.length / 2
  | [], _ => by decide
  | [c], h => by
    rcases h c (by simp) with rfl | rfl <;> decide
  | a :: b :: rest, h => by
    have ih := blockCount_sum rest (fun c hc => h c (by simp [hc]))
    have hlen : (a :: b :: rest).length / 2 = rest.length / 2 + 1 := by
      simp only [List.length_cons]
      omega
    simp only [blockCount, chunk2, hlen] at ih ⊢
    rcases h a (by simp) with rfl | rfl <;> rcases h b (by simp) with rfl | rfl
    · rw [List.count_cons_self, List.count_cons_of_ne (by decide),
        List.count_cons_of_ne (by decide), List.count_cons_of_ne (by decide)]
      omega
    · rw [List.count_cons_self, List.count_cons_of_ne (by decide),
        List.count_cons_of_ne (by decide), List.count_cons_of_ne (by decide)]
      omega
    · rw [List.count_cons_self, List.count_cons_of_ne (by decide),
        List.count_cons_of_ne (by decide), List.count_cons_of_ne (by decide)]
      omega
    · rw [List.count_cons_self, List.count_cons_of_ne (by decide),
        List.count_cons_of_ne (by decide), List.count_cons_of_ne (by decide)]
      omega

/-- Claim C7 (amended): on a bitstring of odd length `n` the four block
counts cover only the `n / 2` complete pairs (the trailing bit is dropped
from the counts), but the expected count per category used in the statistic
is `ceil(n/2) / 4 = ((n+1)/2) / 4`, because `len(blocks)` still includes the
trailing one-character block — not `floor(n/2) / 4` as claimed. -/
theorem chi_square_block_facts (s : List Char) (hb : ∀ c ∈ s, c = '0' ∨ c = '1')
    (hodd : s.length % 2 = 1) :
    blockCount s ['0', '0'] + blockCount s ['0', '1'] +
        blockCount s ['1', '0'] + blockCount s ['1', '1'] = s.length / 2 ∧
      expectedBlock s = (((s.length + 1) / 2 : ℕ) : ℚ) / 4 := by
  refine ⟨blockCount_sum s hb, ?_⟩
  rw [expectedBlock, chunk2_length]

theorem chi_square_block_facts_witness :
    (blockCount ['0', '0', '0'] ['0', '0'] + blockCount ['0', '0', '0'] ['0', '1'] +
        blockCount ['0', '0', '0'] ['1', '0'] + blockCount ['0', '0', '0'] ['1', '1'] =
        (['0', '0', '0'] : List Char).length / 2) ∧
      expectedBlock ['0', '0', '0'] =
        ((((['0', '0', '0'] : List Char).length + 1) / 2 : ℕ) : ℚ) / 4 :=
  chi_square_block_facts ['0', '0', '0'] (by decide) (by decide)

/-- Claim C7 counterexample: on the odd-length bitstring "000" the expected
count used by the statistic is `len(blocks)/4 = 2/4 = 1/2`, not
`floor(3/2)/4 = 1/4`, and the resulting `block_chisq` is 2 where the claimed
floor-based statistic would give 3. -/
theorem chi_square_expectedBlock_counterexample :
    expectedBlock ['0', '0', '0'] = 1 / 2 ∧
      expectedBlock ['0', '0', '0'] ≠
        (((['0', '0', '0'] : List Char).length / 2 : ℕ) : ℚ) / 4 ∧
      (chi_square_test ['0', '0', '0']).map ChiSquareResult.block_chisq = some 2 ∧
      blockChisqClaimed ['0', '0', '0'] = 3 := by
  have b00 : blockCount ['0', '0', '0'] ['0', '0'] = 1 := by decide
  have b01 : blockCount ['0', '0', '0'] ['0', '1'] = 0 := by decide
  have b10 : blockCount ['0', '0', '0'] ['1', '0'] = 0 := by decide
  have b11 : blockCount ['0', '0', '0'] ['1', '1'] = 0 := by decide
  have hexp : expectedBlock ['0', '0', '0'] = 1 / 2 := by
    norm_num [expectedBlock, chunk2]
  refine ⟨hexp, ?_, ?_, ?_⟩
  · rw [hexp]
    norm_num
  · rw [chi_square_test, if_neg (by decide), if_neg (by decide)]
    simp only [Option.map_some', Option.some.injEq]
    show blockChisq ['0', '0', '0'] = 2
    rw [blockChisq, hexp, b00, b01, b10, b11]
    norm_num
  · rw [blockChisqClaimed, b00, b01, b10, b11]
    norm_num

/-- Claim C8: on every non-empty bitstring in which one bit value is entirely
absent, `runs_test` takes the early degenerate branch: it returns
`z_score = 0` with the monotone status flag, and no division is performed. -/
theorem runs_test_monotone_spec (msqrt : ℚ → ℚ) (s : List Char)
    (hne : s ≠ []) (habs : s.count '0' = 0 ∨ s.count '1' = 0) :
    (runs_test msqrt s).z_score = 0 ∧ (runs_test msqrt s).monotone = true := by
  rw [runs_test]
  simp only [if_pos habs]
  refine ⟨?_, ?_⟩ <;> trivial

theorem runs_test_monotone_spec_witness :
    (runs_test id ['0']).z_score = 0 ∧ (runs_test id ['0']).monotone = true :=
  runs_test_monotone_spec id ['0'] (by decide) (Or.inr (by decide))

/-- Claim C10: whenever both bit values occur but the Wald-Wolfowitz variance
is exactly 0 (as for the string "01"), the guard `variance > 0` of line 180
fails and `runs_test` returns `z_score = 0` instead of dividing by the zero
standard deviation. -/
theorem runs_test_zero_variance (msqrt : ℚ → ℚ) (s : List Char)
    (h0 : s.count '0' ≠ 0) (h1 : s.count '1' ≠ 0)
    (hvar : wwVariance (s.count '0') (s.count '1') = 0) :
    (runs_test msqrt s).z_score = 0 := by
  rw [runs_test]
  rw [if_neg (by push_neg; exact ⟨h0, h1⟩)]
  simp only [hvar]
  rw [if_neg (lt_irrefl 0)]

theorem runs_test_zero_variance_witness :
    (runs_test id ['0', '1']).z_score = 0 :=
  runs_test_zero_variance id ['0', '1'] (by decide) (by decide)
    (by show wwVariance 1 1 = 0; norm_num [wwVariance])

theorem parityTrace_mem (f : ℕ → ℕ) :
    ∀ n s c, c ∈ parityTrace f s n → c = '0' ∨ c = '1' := by
  intro n
  induction n with
  | zero => intro s c hc; simp [parityTrace] at hc
  | succ n ih =>
    intro s c hc
    simp only [parityTrace, List.mem_cons] at hc
    rcases hc with rfl | hc
    · rw [parityChar]; split <;> simp
    · exact ih (f s) c hc

theorem genLoop_suffix (f : ℕ → ℕ) (len target : ℤ) :
    ∀ fuel s zeros ones bits out,
      genLoop f len target fuel s zeros ones bits = some out →
      ∃ suf, out = bits ++ suf ∧ suf.Sublist (parityTrace f s fuel) := by
  intro fuel
  induction fuel with
  | zero =>
    intro s z o bits out h
    simp only [genLoop] at h
    split at h
    · exact absurd h (by simp)
    · obtain rfl : bits = out := by injection h
      exact ⟨[], by simp, List.nil_sublist _⟩
  | succ fuel ih =>
    intro s z o bits out h
    simp only [genLoop] at h
    by_cases h1 : (bits.length : ℤ) < len
    · rw [if_pos h1] at h
      have htr : parityTrace f s (fuel + 1) = parityChar s :: parityTrace f (f s) fuel := rfl
      by_cases h2 : s % 2 = 0
      · rw [if_pos h2] at h
        have hpc : parityChar s = '0' := by simp [parityChar, h2]
        by_cases h3 : (z : ℤ) < target
        · rw [if_pos h3] at h
          obtain ⟨suf, rfl, hsub⟩ := ih (f s) (z + 1) o (bits ++ ['0']) out h
          refine ⟨'0' :: suf, by simp, ?_⟩
          rw [htr, hpc]
          exact List.Sublist.cons₂ _ hsub
        · rw [if_neg h3] at h
          obtain ⟨suf, rfl, hsub⟩ := ih (f s) z o bits out h
          refine ⟨suf, rfl, ?_⟩
          rw [htr]
          exact List.Sublist.cons _ hsub
      · rw [if_neg h2] at h
        have hpc : parityChar s = '1' := by simp [parityChar, h2]
        by_cases h3 : (o : ℤ) < target
        · rw [if_pos h3] at h
          obtain ⟨suf, rfl, hsub⟩ := ih (f s) z (o + 1) (bits ++ ['1']) out h
          refine ⟨'1' :: suf, by simp, ?_⟩
          rw [htr, hpc]
          exact List.Sublist.cons₂ _ hsub
        · rw [if_neg h3] at h
          obtain ⟨suf, rfl, hsub⟩ := ih (f s) z o bits out h
          refine ⟨suf, rfl, ?_⟩
          rw [htr]
          exact List.Sublist.cons _ hsub
    · rw [if_neg h1] at h
      obtain rfl : bits = out := by injection h
      exact ⟨[], by simp, List.nil_sublist _⟩

theorem genLoop_counts (f : ℕ → ℕ) (len target : ℤ) (hfit : len = 2 * target) :
    ∀ fuel s zeros ones bits out,
      genLoop f len target fuel s zeros ones bits = some out →
      bits.length = zeros + ones → bits.count '0' = zeros → bits.count '1' = ones →
      (zeros : ℤ) ≤ target → (ones : ℤ) ≤ target →
      (out.length : ℤ) = len ∧ (out.count '0' : ℤ) = target ∧ (out.count '1' : ℤ) = target := by
  intro fuel
  induction fuel with
  | zero =>
    intro s z o bits out h hlen h0 h1 hz ho
    simp only [genLoop] at h
    split at h
    · exact absurd h (by simp)
    · obtain rfl : bits = out := by injection h
      omega
  | succ fuel ih =>
    intro s z o bits out h hlen h0 h1 hz ho
    simp only [genLoop] at h
    by_cases hcond : (bits.length : ℤ) < len
    · rw [if_pos hcond] at h
      by_cases h2 : s % 2 = 0
      · rw [if_pos h2] at h
        by_cases h3 : (z : ℤ) < target
        · rw [if_pos h3] at h
          refine ih (f s) (z + 1) o (bits ++ ['0']) out h ?_ ?_ ?_ ?_ ?_
          · simp only [List.length_append, List.length_singleton]
            omega
          · rw [List.count_append, h0]
            simp
          · rw [List.count_append, h1]
            simp
          · omega
          · omega
        · rw [if_neg h3] at h
          exact ih (f s) z o bits out h hlen h0 h1 hz ho
      · rw [if_neg h2] at h
        by_cases h3 : (o : ℤ) < target
        · rw [if_pos h3] at h
          refine ih (f s) z (o + 1) (bits ++ ['1']) out h ?_ ?_ ?_ ?_ ?_
          · simp only [List.length_append, List.length_singleton]
            omega
          · rw [List.count_append, h0]
            simp
          · rw [List.count_append, h1]
            simp
          · omega
          · omega
        · rw [if_neg h3] at h
          exact ih (f s) z o bits out h hlen h0 h1 hz ho
    · rw [if_neg hcond] at h
      obtain rfl : bits = out := by injection h
      omega

/-- Claim C1: whenever `generate_balanced_bitstring(length)` returns for a
positive even `length` (within any fuel bound, since the rejection loop has no
termination guarantee), the result has exactly `length` characters, all of
them '0' or '1', exactly `length/2` of each, and it is a subsequence of the
parity stream of the states visited — the bits appear in stream order. -/
theorem generate_balanced_bitstring_balanced (f : ℕ → ℕ) (fuel s : ℕ) (len : ℤ)
    (out : List Char) (hpos : 0 < len) (heven : len % 2 = 0)
    (h : generate_balanced_bitstring f fuel s len = some (Except.ok out)) :
    (out.length : ℤ) = len ∧ (out.count '0' : ℤ) = len / 2 ∧
      (out.count '1' : ℤ) = len / 2 ∧ (∀ c ∈ out, c = '0' ∨ c = '1') ∧
      out.Sublist (parityTrace f s fuel) := by
  rw [generate_balanced_bitstring, if_neg (by simp [heven])] at h
  obtain ⟨bits, hgen, hok⟩ := Option.map_eq_some'.mp h
  obtain rfl : bits = out := by
    simpa using hok
  have hfit : len = 2 * (len / 2) := by omega
  have hc := genLoop_counts f len (len / 2) hfit fuel s 0 0 [] bits hgen
    (by simp) (by simp) (by simp) (by omega) (by omega)
  obtain ⟨suf, hsufeq, hsub⟩ := genLoop_suffix f len (len / 2) fuel s 0 0 [] bits hgen
  obtain rfl : suf = bits := by simpa using hsufeq.symm
  exact ⟨hc.1, hc.2.1, hc.2.2, fun c hc' => parityTrace_mem f fuel s c (hsub.subset hc'), hsub⟩

theorem generate_balanced_bitstring_balanced_witness :
    ((['0', '1', '0', '1'] : List Char).length : ℤ) = 4 ∧
      ((['0', '1', '0', '1'] : List Char).count '0' : ℤ) = 4 / 2 ∧
      ((['0', '1', '0', '1'] : List Char).count '1' : ℤ) = 4 / 2 ∧
      (∀ c ∈ (['0', '1', '0', '1'] : List Char), c = '0' ∨ c = '1') ∧
      (['0', '1', '0', '1'] : List Char).Sublist (parityTrace Nat.succ 0 10) :=
  generate_balanced_bitstring_balanced Nat.succ 10 0 4 ['0', '1', '0', '1']
    (by decide) (by decide) rfl

theorem genLoop_nonpos (f : ℕ → ℕ) (len target : ℤ) (hlen : len ≤ 0) :
    ∀ fuel s, genLoop f len target fuel s 0 0 [] = some [] := by
  intro fuel s
  cases fuel with
  | zero =>
    simp only [genLoop]
    rw [if_neg (by simp; omega)]
  | succ n =>
    simp only [genLoop]
    rw [if_neg (by simp; omega)]

/-- Claim C4 counterexample: `generate_balanced_bitstring` only checks
`length % 2 != 0`, so the even non-positive lengths 0 and -2 raise no error:
the loop condition fails immediately and the empty string is returned. -/
theorem generate_balanced_bitstring_nonpositive_counterexample :
    generate_balanced_bitstring id 0 0 0 = some (Except.ok []) ∧
      generate_balanced_bitstring id 0 0 (-2) = some (Except.ok []) := by
  exact ⟨rfl, rfl⟩

/-- Claim C4 (amended): `generate_balanced_bitstring(length)` fails with the
`ValueError` "Length must be even." exactly when `length` is odd (with no
output produced); for an even `length ≤ 0` — including 0 and negative even
values — it does not fail but returns the empty string. -/
theorem generate_balanced_bitstring_error_cases (f : ℕ → ℕ) (fuel s : ℕ) (len : ℤ) :
    (len % 2 ≠ 0 →
      generate_balanced_bitstring f fuel s len = some (Except.error "Length must be even.")) ∧
    (len % 2 = 0 → len ≤ 0 →
      generate_balanced_bitstring f fuel s len = some (Except.ok [])) := by
  constructor
  · intro h
    simp [generate_balanced_bitstring, h]
  · intro he hle
    rw [generate_balanced_bitstring, if_neg (by simp [he])]
    rw [genLoop_nonpos f len (len / 2) hle fuel s]
    rfl

theorem generate_balanced_bitstring_error_cases_witness :
    generate_balanced_bitstring id 0 0 7 = some (Except.error "Length must be even.") ∧
      generate_balanced_bitstring id 0 0 (-4) = some (Except.ok []) :=
  ⟨(generate_balanced_bitstring_error_cases id 0 0 7).1 (by decide),
   (generate_balanced_bitstring_error_cases id 0 0 (-4)).2 (by decide) (by decide)⟩
